import Mathlib

/-!
Shallow embedding of the Connect-4 game engine from `env.py`
(`class Connect4`): board grid, move application (`make_move`),
legal-move listing (`get_valid_moves`) and convolution-based win
detection (`check_win`), together with the specification-level
predicates needed to settle the claims about them.

The engine's construction parameters `n_rows`, `n_columns`,
`win_streak` become the type-level parameters `r`, `c`, `ws`; the
mutable attribute `self.grid` becomes the single field of the
`Connect4` structure, and each method becomes a pure function that
takes and, where the source mutates, returns the engine state.
-/

namespace DeepConnect

/-- A board grid: `n_rows × n_columns` cells holding raw integer marks
(the source stores a numpy float array whose values are the raw
`player_id` integers passed in; `0` is Empty). -/
abbrev Grid (r c : ℕ) := Fin r → Fin c → ℕ

/-- The engine state: `self.grid`.  The parameters `r`, `c`, `ws`
are `n_rows`, `n_columns`, `win_streak` from `__init__`. -/
structure Connect4 (r c ws : ℕ) where
  grid : Grid r c

/-- `Connect4.__init__`: `self.grid = np.zeros(shape=(n_rows, n_columns))`. -/
def Connect4.init (r c ws : ℕ) : Connect4 r c ws := ⟨fun _ _ => 0⟩

/-- `Connect4.reset`: `self.grid = np.zeros(shape=(self.n_rows, self.n_columns))`. -/
def Connect4.reset (g : Connect4 r c ws) : Connect4 r c ws := ⟨fun _ _ => 0⟩

/-- Resolution of a (possibly negative) integer index against a numpy
axis of length `n`: indices `0 ≤ j < n` address cell `j`, indices
`-n ≤ j < 0` address cell `n + j`, anything else raises `IndexError`
(returned here as `none`).  This is the indexing semantics applied to
`column` at every `self.grid[_, column]` access in the source. -/
def npIndex (n : ℕ) (j : ℤ) : Option (Fin n) :=
  if h : 0 ≤ j ∧ j < (n : ℤ) then
    some ⟨j.toNat, by omega⟩
  else if h' : -(n : ℤ) ≤ j ∧ j < 0 then
    some ⟨(j + (n : ℤ)).toNat, by omega⟩
  else
    none

/-- Pointwise write `grid[i0, j0] = v`. -/
def updateCell (g : Grid r c) (i0 : Fin r) (j0 : Fin c) (v : ℕ) : Grid r c :=
  fun i j => if i = i0 ∧ j = j0 then v else g i j

/-- The falling-piece loop of `make_move`:
`for row in range(self.n_rows): if row+1 < self.n_rows and
self.grid[row+1, column] == 0: continue else: ... break`.
`fuel` counts the loop iterations still available (`range(n_rows)`
runs at most `r` of them); `row` is the current loop variable. -/
def dropRowAux (g : Grid r c) (col : Fin c) : ℕ → ℕ → ℕ
  | 0, row => row
  | fuel + 1, row =>
    if h : row + 1 < r then
      if g ⟨row + 1, h⟩ col = 0 then dropRowAux g col fuel (row + 1)
      else row
    else row

lemma dropRowAux_lt (g : Grid r c) (col : Fin c) (fuel row : ℕ) (h : row < r) :
    dropRowAux g col fuel row < r := by
  induction fuel generalizing row with
  | zero => simpa [dropRowAux] using h
  | succ fuel ih =>
    simp only [dropRowAux]
    split
    · split
      · exact ih _ (by omega)
      · exact h
    · exact h

/-- The row at which the dropped piece comes to rest: the loop starts
at `row = 0` and may run at most `n_rows` iterations. -/
def dropRow [NeZero r] (g : Grid r c) (col : Fin c) : Fin r :=
  ⟨dropRowAux g col r 0, dropRowAux_lt g col r 0 (Nat.pos_of_ne_zero (NeZero.ne r))⟩

/-- `Connect4.make_move(self, player_id, column, imaginary=False)`.
Returns the pair (returned value or raised error, engine state after
the call).  The source sets `next_grid = self.grid`, which binds
`next_grid` to the *same* numpy array as the stored grid, so the
in-place write `next_grid[row, column] = player_id` mutates the
engine's stored grid for both values of `imaginary`; the final
`if not imaginary: self.grid = next_grid` reassigns the grid to
itself and has no further effect. -/
def make_move [NeZero r] (game : Connect4 r c ws) (player_id : ℕ) (column : ℤ)
    (imaginary : Bool) : Except String (Grid r c) × Connect4 r c ws :=
  match npIndex c column with
  | none => (.error "IndexError: index out of bounds for axis 1", game)
  | some col =>
    if game.grid 0 col ≠ 0 then
      (.error ("This move is illegal. Column " ++ toString column ++ " is already full."),
        game)
    else
      let next := updateCell game.grid (dropRow game.grid col) col player_id
      (.ok next, ⟨next⟩)

/-- `Connect4.get_valid_moves(self)`: the columns whose top cell is 0,
collected by a loop over `range(self.n_columns)` in ascending order. -/
def get_valid_moves [NeZero r] (game : Connect4 r c ws) : List (Fin c) :=
  (List.finRange c).filter fun col => game.grid 0 col = 0

/-- The boolean mask `player_pieces = (self.grid == player_id)` viewed
as a 0/1 array over all of `ℕ × ℕ`, zero outside the grid (full-mode
convolution reads the array as zero-padded). -/
def pieces (g : Grid r c) (pid : ℕ) : ℕ → ℕ → ℕ := fun i j =>
  if h : i < r ∧ j < c then (if g ⟨i, h.1⟩ ⟨j, h.2⟩ = pid then 1 else 0) else 0

/-- A convolution kernel: its shape `(kr, kc)` and its entries,
zero outside the shape. -/
structure Kernel where
  kr : ℕ
  kc : ℕ
  val : ℕ → ℕ → ℕ

/-- `h_win_kernel = np.ones(shape=(1, win_streak))`. -/
def hKernel (ws : ℕ) : Kernel :=
  ⟨1, ws, fun k l => if k = 0 ∧ l < ws then 1 else 0⟩

/-- `v_win_kernel = np.ones(shape=(win_streak, 1))`. -/
def vKernel (ws : ℕ) : Kernel :=
  ⟨ws, 1, fun k l => if k < ws ∧ l = 0 then 1 else 0⟩

/-- `d1_win_kernel`: zeros of shape `(win_streak, win_streak)` with
`d1_win_kernel[i, i] = 1`. -/
def d1Kernel (ws : ℕ) : Kernel :=
  ⟨ws, ws, fun k l => if k < ws ∧ l < ws ∧ l = k then 1 else 0⟩

/-- `d2_win_kernel`: zeros of shape `(win_streak, win_streak)` with
`d2_win_kernel[i, win_streak-i-1] = 1`. -/
def d2Kernel (ws : ℕ) : Kernel :=
  ⟨ws, ws, fun k l => if k < ws ∧ l < ws ∧ l = ws - 1 - k then 1 else 0⟩

/-- One output cell of `scipy.signal.convolve2d(player_pieces, kernel,
mode="full")`: `out[i, j] = Σ_{k,l} kernel[k, l] · pieces[i-k, j-l]`,
the term present only when `k ≤ i` and `l ≤ j` (the input array is
read as zero-padded, so larger `i-k`, `j-l` contribute zero through
`P` itself). -/
def conv2dAt (P : ℕ → ℕ → ℕ) (K : Kernel) (i j : ℕ) : ℕ :=
  ∑ k ∈ Finset.range K.kr, ∑ l ∈ Finset.range K.kc,
    if k ≤ i ∧ l ≤ j then K.val k l * P (i - k) (j - l) else 0

/-- `np.any(win_mask >= self.win_streak)` for one kernel: the full-mode
output has shape `(r + kr - 1) × (c + kc - 1)`. -/
def kernelWins (P : ℕ → ℕ → ℕ) (K : Kernel) (ws r c : ℕ) : Bool :=
  (List.range (r + K.kr - 1)).any fun i =>
    (List.range (c + K.kc - 1)).any fun j =>
      decide (ws ≤ conv2dAt P K i j)

/-- `Connect4.check_win(self, player_id)`: convolve the player mask
with each of the four kernels in order, reporting a win as soon as
any output cell reaches `win_streak` (the loop breaks on the first
winning kernel; the net result is the disjunction). -/
def check_win (game : Connect4 r c ws) (player_id : ℕ) : Bool :=
  [hKernel ws, vKernel ws, d1Kernel ws, d2Kernel ws].any fun K =>
    kernelWins (pieces game.grid player_id) K ws r c

/-- Specification-level win predicate, following the spec's wording:
some in-bounds placement of one of the four directional patterns
(horizontal, vertical, diagonal-down-right, diagonal-down-left) of
length `win_streak` is fully covered by the player's pieces, never
counting positions past the grid edge. -/
def winByRun (g : Grid r c) (pid ws : ℕ) : Prop :=
  (∃ i < r, ∃ j < c, j + ws ≤ c ∧ ∀ t < ws, pieces g pid i (j + t) = 1) ∨
  (∃ i < r, ∃ j < c, i + ws ≤ r ∧ ∀ t < ws, pieces g pid (i + t) j = 1) ∨
  (∃ i < r, ∃ j < c, i + ws ≤ r ∧ j + ws ≤ c ∧
    ∀ t < ws, pieces g pid (i + t) (j + t) = 1) ∨
  (∃ i < r, ∃ j < c, i + ws ≤ r ∧ j + ws ≤ c ∧
    ∀ t < ws, pieces g pid (i + t) (j + (ws - 1) - t) = 1)

instance instDecidableWinByRun (g : Grid r c) (pid ws : ℕ) :
    Decidable (winByRun g pid ws) := by
  unfold winByRun
  infer_instance

/-- The board from the spec's horizontal-win test: Player1 marks at
row 5, columns 0–3 of an otherwise empty 6×7 board. -/
def exampleH : Connect4 6 7 4 := ⟨fun i j => if i = 5 ∧ j.val ≤ 3 then 1 else 0⟩

/-- A 6×7 board whose column 0 is completely full of Player1 pieces. -/
def fullCol0 : Connect4 6 7 4 := ⟨fun _ j => if j = 0 then 1 else 0⟩

/-- The completely full 6×7 board, every cell marked by Player1. -/
def fullBoard : Connect4 6 7 4 := ⟨fun _ _ => 1⟩

/-- Bottom-anchored columns: in each column the occupied cells are
exactly the rows from some boundary `k` down to the bottom row, the
empty cells filling the remaining top rows. -/
def bottomAnchored (g : Grid r c) : Prop :=
  ∀ j : Fin c, ∃ k : ℕ, ∀ i : Fin r, g i j ≠ 0 ↔ k ≤ i.val

/-- A guarded player-1 drop, used only to exhibit concrete reachable
boards: performs the drop when the column's top cell is empty and
leaves the board unchanged otherwise. -/
def fillStepSafe [NeZero r] (g : Grid r c) (col : Fin c) : Grid r c :=
  if g 0 col = 0 then updateCell g (dropRow g col) col 1 else g

/-- Gravity: within each column, an occupied cell never has an empty
cell below it. -/
def gravity (g : Grid r c) : Prop :=
  ∀ (j : Fin c) (i1 i2 : Fin r), i1 ≤ i2 → g i1 j ≠ 0 → g i2 j ≠ 0

/-- Boards reachable by legal play: start from a freshly constructed
(equivalently, freshly reset) engine and repeatedly apply `make_move`
with a player in {1, 2} and a column returned by `get_valid_moves`. -/
inductive Reachable [NeZero r] : Grid r c → Prop where
  | init : Reachable (Connect4.init r c ws).grid
  | step (g next : Grid r c) (pid : ℕ) (col : Fin c) (im : Bool) :
      Reachable g → (pid = 1 ∨ pid = 2) →
      col ∈ get_valid_moves (Connect4.mk g : Connect4 r c ws) →
      (make_move (Connect4.mk g : Connect4 r c ws) pid (col.val : ℤ) im).1 = .ok next →
      Reachable next

/-! ### Basic lemmas about indexing, the drop loop and `make_move` -/

lemma npIndex_coe (n : ℕ) (j : Fin n) : npIndex n (j.val : ℤ) = some j := by
  have h : (0 : ℤ) ≤ (j.val : ℤ) ∧ (j.val : ℤ) < (n : ℤ) := by
    constructor <;> [positivity; exact_mod_cast j.isLt]
  simp only [npIndex, dif_pos h]
  simp [Fin.ext_iff]

lemma make_move_valid [NeZero r] (g : Connect4 r c ws) (pid : ℕ) (col : Fin c)
    (im : Bool) (h : g.grid 0 col = 0) :
    make_move g pid (col.val : ℤ) im =
      (.ok (updateCell g.grid (dropRow g.grid col) col pid),
        ⟨updateCell g.grid (dropRow g.grid col) col pid⟩) := by
  unfold make_move
  rw [npIndex_coe]
  simp [h]

lemma make_move_full [NeZero r] (g : Connect4 r c ws) (pid : ℕ) (col : Fin c)
    (im : Bool) (h : g.grid 0 col ≠ 0) :
    make_move g pid (col.val : ℤ) im =
      (.error ("This move is illegal. Column " ++ toString (col.val : ℤ) ++
        " is already full."), g) := by
  unfold make_move
  rw [npIndex_coe]
  simp [h]

lemma dropRowAux_empty (g : Grid r c) (col : Fin c) (fuel : ℕ) :
    ∀ (row : ℕ) (h : row < r), g ⟨row, h⟩ col = 0 →
      ∀ i : Fin r, i.val = dropRowAux g col fuel row → g i col = 0 := by
  induction fuel with
  | zero =>
    intro row h hrow i hi
    have : i = ⟨row, h⟩ := Fin.ext (by simpa [dropRowAux] using hi)
    rw [this]; exact hrow
  | succ fuel ih =>
    intro row h hrow i hi
    by_cases hlt : row + 1 < r
    · by_cases hc : g ⟨row + 1, hlt⟩ col = 0
      · have heq : dropRowAux g col (fuel + 1) row = dropRowAux g col fuel (row + 1) := by
          simp [dropRowAux, hlt, hc]
        exact ih (row + 1) hlt hc i (by rw [hi, heq])
      · have heq : dropRowAux g col (fuel + 1) row = row := by simp [dropRowAux, hlt, hc]
        have : i = ⟨row, h⟩ := Fin.ext (by rw [hi, heq])
        rw [this]; exact hrow
    · have heq : dropRowAux g col (fuel + 1) row = row := by simp [dropRowAux, hlt]
      have : i = ⟨row, h⟩ := Fin.ext (by rw [hi, heq])
      rw [this]; exact hrow

/-- The cell the falling piece lands on is always empty, provided the
column's top cell is empty: the loop only advances past a row when the
cell below it is empty, so the row it stops at holds an empty cell. -/
lemma dropRow_empty [NeZero r] (g : Grid r c) (col : Fin c) (h : g 0 col = 0) :
    g (dropRow g col) col = 0 := by
  have h0 : (0 : ℕ) < r := Nat.pos_of_ne_zero (NeZero.ne r)
  have hz : g ⟨0, h0⟩ col = 0 := by
    have : (⟨0, h0⟩ : Fin r) = 0 := Fin.ext (by simp)
    rw [this]; exact h
  exact dropRowAux_empty g col r 0 h0 hz (dropRow g col) rfl

/-- Cells strictly below the landing row, immediately adjacent to it,
are occupied: the loop stops at `row` only when `row+1` is off the
board or `g (row+1) col ≠ 0`. -/
lemma dropRowAux_succ_occupied (g : Grid r c) (col : Fin c) (fuel : ℕ) :
    ∀ row : ℕ, r ≤ fuel + row →
      ∀ i : Fin r, i.val = dropRowAux g col fuel row + 1 → g i col ≠ 0 := by
  induction fuel with
  | zero =>
    intro row hge i hi
    simp only [dropRowAux] at hi
    omega
  | succ fuel ih =>
    intro row hge i hi
    by_cases hlt : row + 1 < r
    · by_cases hc : g ⟨row + 1, hlt⟩ col = 0
      · have heq : dropRowAux g col (fuel + 1) row = dropRowAux g col fuel (row + 1) := by
          simp [dropRowAux, hlt, hc]
        exact ih (row + 1) (by omega) i (by rw [hi, heq])
      · have heq : dropRowAux g col (fuel + 1) row = row := by simp [dropRowAux, hlt, hc]
        have : i = ⟨row + 1, hlt⟩ := Fin.ext (by rw [hi, heq])
        rw [this]; exact hc
    · have heq : dropRowAux g col (fuel + 1) row = row := by simp [dropRowAux, hlt]
      rw [heq] at hi
      omega

lemma dropRow_succ_occupied [NeZero r] (g : Grid r c) (col : Fin c)
    (i : Fin r) (hi : i.val = (dropRow g col).val + 1) : g i col ≠ 0 := by
  exact dropRowAux_succ_occupied g col r 0 (by omega) i hi

/-! ### Claim C1: the simulate path mutates the stored board -/

/-- C1: the claim states that `make_move` with `simulate=true` changes
zero cells of the engine's stored board.  The source instead binds
`next_grid` to the very array stored in `self.grid`, so the in-place
write mutates the stored board: after simulating a move of player 1
into column 0 of a fresh board, the stored grid holds `1` at cell
`(5, 0)` where it held `0` before the call. -/
theorem claim_C1_simulate_mutates_stored_grid :
    (Connect4.init 6 7 4).grid 5 0 = 0 ∧
    (make_move (Connect4.init 6 7 4) 1 0 true).2.grid 5 0 = 1 := by
  exact ⟨rfl, rfl⟩

/-! ### Claim C3: simulate-then-commit does not produce equal boards -/

/-- C3: the claim states that applying the same move with
`simulate=true` and then with `simulate=false` yields structurally
identical boards.  Because the simulated call already mutated the
stored grid, the commit call drops a second piece on top of the
first: simulating player 1 into column 0 of a fresh board returns the
board with one piece at `(5, 0)`, and the subsequent commit call
returns the board with pieces at both `(5, 0)` and `(4, 0)` — the two
returned boards differ. -/
theorem claim_C3_simulate_then_commit_differ :
    (make_move (Connect4.init 6 7 4) 1 0 true).1 =
      .ok (updateCell (Connect4.init 6 7 4).grid 5 0 1) ∧
    (make_move (make_move (Connect4.init 6 7 4) 1 0 true).2 1 0 false).1 =
      .ok (updateCell (updateCell (Connect4.init 6 7 4).grid 5 0 1) 4 0 1) ∧
    updateCell (Connect4.init 6 7 4).grid 5 0 1 ≠
      updateCell (updateCell (Connect4.init 6 7 4).grid 5 0 1) 4 0 1 := by
  refine ⟨rfl, rfl, fun h => ?_⟩
  have := congrFun (congrFun h 4) 0
  simp [updateCell, Connect4.init] at this

/-! ### Claim C4: out-of-range columns -/

/-- C4 counterexample: the claim states that every column index
outside `0..n_columns`, including negative ones, surfaces an error and
is never redirected to an in-range column.  Calling `make_move` with
column `-1` on a fresh board instead succeeds and drops the piece in
column 6 (numpy resolves negative indices from the right). -/
theorem claim_C4_counterexample_neg_index :
    (make_move (Connect4.init 6 7 4) 1 (-1) false).1 =
      .ok (updateCell (Connect4.init 6 7 4).grid 5 6 1) ∧
    (make_move (Connect4.init 6 7 4) 1 (-1) false).2.grid 5 6 = 1 := by
  exact ⟨rfl, rfl⟩

/-- C4 (amended): a column index `≥ n_columns` or `< -n_columns` makes
`make_move` raise an IndexError at the initial full-column check,
before any mutation, leaving the engine's board unchanged; a negative
index in `-n_columns..-1` is silently resolved to the in-range column
`n_columns + column` rather than raising. -/
theorem claim_C4_out_of_range (r c ws : ℕ) [NeZero r] (g : Connect4 r c ws)
    (pid : ℕ) (col : ℤ) (im : Bool) :
    ((col < -(c : ℤ) ∨ (c : ℤ) ≤ col) →
      make_move g pid col im =
        (.error "IndexError: index out of bounds for axis 1", g)) ∧
    ((-(c : ℤ) ≤ col ∧ col < 0) → npIndex c col = npIndex c (col + (c : ℤ))) := by
  constructor
  · intro h
    have h1 : ¬((0 : ℤ) ≤ col ∧ col < (c : ℤ)) := by omega
    have h2 : ¬(-(c : ℤ) ≤ col ∧ col < 0) := by omega
    unfold make_move npIndex
    rw [dif_neg h1, dif_neg h2]
  · intro h
    have h1 : ¬((0 : ℤ) ≤ col ∧ col < (c : ℤ)) := by omega
    have h2 : (0 : ℤ) ≤ col + (c : ℤ) ∧ col + (c : ℤ) < (c : ℤ) := by omega
    unfold npIndex
    rw [dif_neg h1, dif_pos h, dif_pos h2]

/-- C4 witness: column 9 on the default 6×7 engine raises, and column
`-1` resolves exactly as column `-1 + 7 = 6` does. -/
theorem claim_C4_out_of_range_witness :
    make_move (Connect4.init 6 7 4) 1 9 false =
      (.error "IndexError: index out of bounds for axis 1", Connect4.init 6 7 4) ∧
    npIndex 7 (-1) = npIndex 7 (-1 + 7) :=
  ⟨(claim_C4_out_of_range 6 7 4 (Connect4.init 6 7 4) 1 9 false).1 (by decide),
   (claim_C4_out_of_range 6 7 4 (Connect4.init 6 7 4) 1 (-1) false).2 (by decide)⟩

/-! ### Claim C6: full-column rejection -/

/-- C6: calling `make_move` on an in-range column whose topmost cell
is occupied raises the illegal-move error for either value of
`imaginary`, and the engine's stored board is unchanged by the failed
call (the check precedes any mutation). -/
theorem claim_C6_full_column_rejected (r c ws : ℕ) [NeZero r] (g : Connect4 r c ws)
    (pid : ℕ) (col : Fin c) (im : Bool) (h : g.grid 0 col ≠ 0) :
    make_move g pid (col.val : ℤ) im =
      (.error ("This move is illegal. Column " ++ toString (col.val : ℤ) ++
        " is already full."), g) :=
  make_move_full g pid col im h

/-- C6 witness: dropping into the full column 0 of `fullCol0` fails
and leaves the engine state equal to `fullCol0`. -/
theorem claim_C6_full_column_rejected_witness :
    make_move fullCol0 2 (((0 : Fin 7)).val : ℤ) true =
      (.error ("This move is illegal. Column " ++ toString (((0 : Fin 7)).val : ℤ) ++
        " is already full."), fullCol0) :=
  claim_C6_full_column_rejected 6 7 4 fullCol0 2 0 true (by decide)

/-! ### Claim C10: the player argument is never validated -/

/-- C10: `make_move` with `player_id = 0` on a column whose top cell
is empty succeeds without any error — the returned board and the
stored board both equal the prior board, because the move writes the
Empty mark into an already-empty cell, so no cell changes at all (the
single-cell-change property fails for this input). -/
theorem claim_C10_player_zero_noop (r c ws : ℕ) [NeZero r] (g : Connect4 r c ws)
    (col : Fin c) (im : Bool) (h : g.grid 0 col = 0) :
    (make_move g 0 (col.val : ℤ) im).1 = .ok g.grid ∧
    (make_move g 0 (col.val : ℤ) im).2 = g := by
  have hup : updateCell g.grid (dropRow g.grid col) col 0 = g.grid := by
    funext i j
    unfold updateCell
    split
    · next hij => rw [hij.1, hij.2]; exact (dropRow_empty g.grid col h).symm
    · rfl
  rw [make_move_valid g 0 col im h, hup]
  exact ⟨rfl, rfl⟩

/-- C10 witness: a simulated player-0 move into column 3 of the fresh
board returns the fresh board and leaves the engine state fresh. -/
theorem claim_C10_player_zero_noop_witness :
    (make_move (Connect4.init 6 7 4) 0 (((3 : Fin 7)).val : ℤ) true).1 =
      .ok (Connect4.init 6 7 4).grid ∧
    (make_move (Connect4.init 6 7 4) 0 (((3 : Fin 7)).val : ℤ) true).2 =
      Connect4.init 6 7 4 :=
  claim_C10_player_zero_noop 6 7 4 (Connect4.init 6 7 4) 3 true rfl

/-! ### Gravity lemmas and claims C5, C9 -/

lemma mem_get_valid_moves [NeZero r] (g : Connect4 r c ws) (col : Fin c) :
    col ∈ get_valid_moves g ↔ g.grid 0 col = 0 := by
  simp [get_valid_moves, List.mem_filter, List.mem_finRange]

/-- Dropping a nonzero mark into a column with an empty top preserves
the gravity invariant. -/
lemma gravity_update [NeZero r] (g : Grid r c) (col : Fin c) (pid : ℕ)
    (hg : gravity g) (h0 : g 0 col = 0) (hpid : pid ≠ 0) :
    gravity (updateCell g (dropRow g col) col pid) := by
  intro j i1 i2 hle hne
  unfold updateCell at hne ⊢
  split
  · exact hpid
  · next hnot2 =>
    by_cases h1 : i1 = dropRow g col ∧ j = col
    · have hj : j = col := h1.2
      have hlt : dropRow g col < i2 := by
        rcases lt_or_eq_of_le hle with h | h
        · rw [h1.1] at h; exact h
        · exact absurd ⟨by rw [← h, h1.1], hj⟩ hnot2
      have hs : (dropRow g col).val + 1 ≤ i2.val := hlt
      have hsucc : ((dropRow g col).val + 1) < r := lt_of_le_of_lt hs i2.isLt
      have hocc := dropRow_succ_occupied g col ⟨(dropRow g col).val + 1, hsucc⟩ rfl
      have := hg col ⟨(dropRow g col).val + 1, hsucc⟩ i2 hs hocc
      rw [hj]; exact this
    · rw [if_neg h1] at hne
      exact hg j i1 i2 hle hne

/-- Every board reachable by legal play satisfies the gravity
invariant. -/
lemma reachable_gravity [NeZero r] (g : Grid r c) (h : Reachable g) : gravity g := by
  induction h with
  | init => intro j i1 i2 _ hne; exact absurd rfl hne
  | step g next pid col im hre hpid hcol hmk ih =>
    have h0 : g 0 col = 0 := (mem_get_valid_moves ⟨g⟩ col).mp hcol
    rw [make_move_valid ⟨g⟩ pid col im h0] at hmk
    have hnext : next = updateCell g (dropRow g col) col pid := by
      cases hmk; rfl
    rw [hnext]
    exact gravity_update g col pid ih h0 (by rcases hpid with h | h <;> simp [h])

lemma gravity_bottomAnchored (g : Grid r c) (hg : gravity g) : bottomAnchored g := by
  intro j
  by_cases hocc : (Finset.univ.filter fun i : Fin r => g i j ≠ 0).Nonempty
  · set i0 := (Finset.univ.filter fun i : Fin r => g i j ≠ 0).min' hocc with hi0
    have hmem : g i0 j ≠ 0 := by
      have := (Finset.univ.filter fun i : Fin r => g i j ≠ 0).min'_mem hocc
      simpa using this
    refine ⟨i0.val, fun i => ⟨fun hne => ?_, fun hle => ?_⟩⟩
    · exact Finset.min'_le _ i (by simpa using hne)
    · exact hg j i0 i hle hmem
  · refine ⟨r, fun i => ⟨fun hne => ?_, fun hle => ?_⟩⟩
    · exact (hocc ⟨i, by simp [hne]⟩).elim
    · exact absurd hle (by omega)

/-- C5: on a board satisfying the gravity invariant, a real
(`simulate=false`) move by player 1 or 2 into a column with an empty
top cell drops the mark onto the lowest (largest-index) empty cell of
that column, and exactly that one cell differs between the prior and
resulting boards. -/
theorem claim_C5_gravity_drop (r c ws : ℕ) [NeZero r] (g : Connect4 r c ws)
    (pid : ℕ) (col : Fin c) (hpid : pid = 1 ∨ pid = 2) (hgrav : gravity g.grid)
    (h : g.grid 0 col = 0) :
    ∃ low : Fin r,
      g.grid low col = 0 ∧
      (∀ i : Fin r, low < i → g.grid i col ≠ 0) ∧
      (make_move g pid (col.val : ℤ) false).1 = .ok (updateCell g.grid low col pid) ∧
      (∀ (i : Fin r) (j : Fin c),
        updateCell g.grid low col pid i j = g.grid i j ↔ ¬(i = low ∧ j = col)) := by
  have hpid0 : pid ≠ 0 := by rcases hpid with h' | h' <;> simp [h']
  refine ⟨dropRow g.grid col, dropRow_empty g.grid col h, ?_, ?_, ?_⟩
  · intro i hi
    have hs : (dropRow g.grid col).val + 1 ≤ i.val := hi
    have hsucc : (dropRow g.grid col).val + 1 < r := lt_of_le_of_lt hs i.isLt
    have hocc := dropRow_succ_occupied g.grid col ⟨(dropRow g.grid col).val + 1, hsucc⟩ rfl
    exact hgrav col ⟨(dropRow g.grid col).val + 1, hsucc⟩ i hs hocc
  · rw [make_move_valid g pid col false h]
  · intro i j
    unfold updateCell
    constructor
    · intro heq hij
      rw [if_pos hij] at heq
      rw [hij.1, hij.2] at heq
      rw [dropRow_empty g.grid col h] at heq
      exact hpid0 heq
    · intro hij
      rw [if_neg hij]

/-- C5 witness: the first move of player 1 into column 2 of the fresh
board lands on the bottom row. -/
theorem claim_C5_gravity_drop_witness :
    ∃ low : Fin 6,
      (Connect4.init 6 7 4).grid low 2 = 0 ∧
      (∀ i : Fin 6, low < i → (Connect4.init 6 7 4).grid i 2 ≠ 0) ∧
      (make_move (Connect4.init 6 7 4) 1 (((2 : Fin 7)).val : ℤ) false).1 =
        .ok (updateCell (Connect4.init 6 7 4).grid low 2 1) ∧
      (∀ (i : Fin 6) (j : Fin 7),
        updateCell (Connect4.init 6 7 4).grid low 2 1 i j =
          (Connect4.init 6 7 4).grid i j ↔ ¬(i = low ∧ j = 2)) :=
  claim_C5_gravity_drop 6 7 4 (Connect4.init 6 7 4) 1 2 (Or.inl rfl)
    (fun _ _ _ _ hne => absurd rfl hne) rfl

/-- C9: starting from a freshly constructed (or reset) board, every
sequence of legal moves — each by player 1 or 2 into a column returned
by `get_valid_moves` — leaves every column's occupied cells as a
contiguous run anchored at the bottom row, the empty cells filling the
remaining top rows. -/
theorem claim_C9_gravity_invariant (r c : ℕ) [NeZero r] (g : Grid r c)
    (h : Reachable g) : bottomAnchored g :=
  gravity_bottomAnchored g (reachable_gravity g h)

/-- C9 witness: the invariant holds for the fresh board reached by the
empty move sequence. -/
theorem claim_C9_gravity_invariant_witness :
    bottomAnchored (Connect4.init 6 7 4).grid :=
  claim_C9_gravity_invariant 6 7 (Connect4.init 6 7 4).grid
    (Reachable.init : Reachable (Connect4.init 6 7 4).grid)

/-! ### Claim C8: legal-move listing -/

lemma reachable_drop [NeZero r] {g : Grid r c} (pid : ℕ) (col : Fin c)
    (hre : Reachable g) (hpid : pid = 1 ∨ pid = 2) (h0 : g 0 col = 0) :
    Reachable (updateCell g (dropRow g col) col pid) :=
  Reachable.step g _ pid col false hre hpid
    ((mem_get_valid_moves (Connect4.mk g : Connect4 r c 0) col).mpr h0)
    (by rw [make_move_valid (Connect4.mk g : Connect4 r c 0) pid col false h0])

lemma reachable_fillStepSafe [NeZero r] {g : Grid r c} (hre : Reachable g)
    (col : Fin c) : Reachable (fillStepSafe g col) := by
  unfold fillStepSafe
  split
  · next h0 => exact reachable_drop 1 col hre (Or.inl rfl) h0
  · exact hre

lemma reachable_foldl [NeZero r] {g : Grid r c} (hre : Reachable g)
    (cols : List (Fin c)) : Reachable (cols.foldl fillStepSafe g) := by
  induction cols generalizing g with
  | nil => exact hre
  | cons col rest ih => exact ih (reachable_fillStepSafe hre col)

/-- The completely full board is reachable by legal play: drop into
each column six times. -/
lemma reachable_full : Reachable fullBoard.grid := by
  have heq : (([0, 0, 0, 0, 0, 0, 1, 1, 1, 1, 1, 1, 2, 2, 2, 2, 2, 2,
      3, 3, 3, 3, 3, 3, 4, 4, 4, 4, 4, 4, 5, 5, 5, 5, 5, 5,
      6, 6, 6, 6, 6, 6] : List (Fin 7)).foldl fillStepSafe
        (Connect4.init 6 7 4).grid) = fullBoard.grid := by decide
  exact heq ▸ reachable_foldl
    (Reachable.init : Reachable (Connect4.init 6 7 4).grid) _

/-- C8: `get_valid_moves` contains exactly the columns whose topmost
cell is Empty, in strictly ascending order, and on a board reachable
by legal play it is empty only when every cell of the board is
occupied. -/
theorem claim_C8_legal_moves (r c ws : ℕ) [NeZero r] :
    (∀ (g : Connect4 r c ws) (col : Fin c),
      col ∈ get_valid_moves g ↔ g.grid 0 col = 0) ∧
    (∀ g : Connect4 r c ws, (get_valid_moves g).Pairwise (· < ·)) ∧
    (∀ g : Connect4 r c ws, Reachable g.grid → get_valid_moves g = [] →
      ∀ (i : Fin r) (j : Fin c), g.grid i j ≠ 0) := by
  refine ⟨mem_get_valid_moves, ?_, ?_⟩
  · intro g
    exact (List.pairwise_lt_finRange c).filter _
  · intro g hre hemp i j
    have htop : g.grid 0 j ≠ 0 := by
      intro h0
      have hmem : j ∈ get_valid_moves g := (mem_get_valid_moves g j).mpr h0
      rw [hemp] at hmem
      exact absurd hmem (List.not_mem_nil j)
    exact reachable_gravity g.grid hre j 0 i (by simp [Fin.le_def]) htop

/-- C8 witness: on the fresh board column 3 is listed because its top
cell is empty; the listing is ascending; and on the reachable full
board the empty listing coincides with every cell being occupied. -/
theorem claim_C8_legal_moves_witness :
    ((3 : Fin 7) ∈ get_valid_moves (Connect4.init 6 7 4) ↔
      (Connect4.init 6 7 4).grid 0 3 = 0) ∧
    (get_valid_moves fullBoard).Pairwise (· < ·) ∧
    (∀ (i : Fin 6) (j : Fin 7), fullBoard.grid i j ≠ 0) :=
  ⟨(claim_C8_legal_moves 6 7 4).1 (Connect4.init 6 7 4) 3,
   (claim_C8_legal_moves 6 7 4).2.1 fullBoard,
   (claim_C8_legal_moves 6 7 4).2.2 fullBoard reachable_full (by decide)⟩

/-! ### The convolution-based win check equals the directional-run check -/

lemma pieces_le_one (g : Grid r c) (pid i j : ℕ) : pieces g pid i j ≤ 1 := by
  unfold pieces
  split
  · split <;> omega
  · omega

lemma pieces_eq_one_iff (g : Grid r c) (pid i j : ℕ) :
    pieces g pid i j = 1 ↔ ∃ (hi : i < r) (hj : j < c), g ⟨i, hi⟩ ⟨j, hj⟩ = pid := by
  constructor
  · intro h1
    unfold pieces at h1
    by_cases hb : i < r ∧ j < c
    · rw [dif_pos hb] at h1
      refine ⟨hb.1, hb.2, ?_⟩
      by_contra hne
      rw [if_neg hne] at h1
      omega
    · rw [dif_neg hb] at h1
      omega
  · rintro ⟨hi, hj, hc⟩
    unfold pieces
    rw [dif_pos ⟨hi, hj⟩, if_pos hc]

lemma sum_ge_iff_all_one (n : ℕ) (f : ℕ → ℕ) (hf : ∀ t < n, f t ≤ 1) :
    n ≤ ∑ t ∈ Finset.range n, f t ↔ ∀ t < n, f t = 1 := by
  constructor
  · intro hsum t ht
    by_contra hne
    have hlt : ∑ x ∈ Finset.range n, f x < ∑ _x ∈ Finset.range n, 1 := by
      apply Finset.sum_lt_sum
      · intro x hx
        exact hf x (Finset.mem_range.mp hx)
      · exact ⟨t, Finset.mem_range.mpr ht, by have := hf t ht; omega⟩
    simp only [Finset.sum_const, Finset.card_range, smul_eq_mul, mul_one] at hlt
    omega
  · intro hall
    have heq : ∑ t ∈ Finset.range n, f t = ∑ _t ∈ Finset.range n, 1 :=
      Finset.sum_congr rfl fun x hx => hall x (Finset.mem_range.mp hx)
    rw [heq]
    simp

lemma sum_guard_iff (n : ℕ) (cond : ℕ → Prop) [DecidablePred cond] (val : ℕ → ℕ)
    (hval : ∀ t, val t ≤ 1) :
    (n ≤ ∑ t ∈ Finset.range n, if cond t then val t else 0) ↔
      ∀ t < n, cond t ∧ val t = 1 := by
  rw [sum_ge_iff_all_one]
  · constructor
    · intro h t ht
      have hh := h t ht
      by_cases hc : cond t
      · rw [if_pos hc] at hh
        exact ⟨hc, hh⟩
      · rw [if_neg hc] at hh
        omega
    · intro h t ht
      obtain ⟨hc, hv⟩ := h t ht
      rw [if_pos hc, hv]
  · intro t _
    split
    · exact hval t
    · omega

lemma conv_hKernel (P : ℕ → ℕ → ℕ) (ws i j : ℕ) :
    conv2dAt P (hKernel ws) i j =
      ∑ l ∈ Finset.range ws, if l ≤ j then P i (j - l) else 0 := by
  unfold conv2dAt hKernel
  dsimp only
  rw [Finset.sum_range_one]
  refine Finset.sum_congr rfl fun l hl => ?_
  have hlw : l < ws := Finset.mem_range.mp hl
  simp [hlw, Nat.zero_le]

lemma conv_vKernel (P : ℕ → ℕ → ℕ) (ws i j : ℕ) :
    conv2dAt P (vKernel ws) i j =
      ∑ k ∈ Finset.range ws, if k ≤ i then P (i - k) j else 0 := by
  unfold conv2dAt vKernel
  dsimp only
  refine Finset.sum_congr rfl fun k hk => ?_
  have hkw : k < ws := Finset.mem_range.mp hk
  rw [Finset.sum_range_one]
  simp [hkw, Nat.zero_le]

lemma conv_d1Kernel (P : ℕ → ℕ → ℕ) (ws i j : ℕ) :
    conv2dAt P (d1Kernel ws) i j =
      ∑ k ∈ Finset.range ws, if k ≤ i ∧ k ≤ j then P (i - k) (j - k) else 0 := by
  unfold conv2dAt d1Kernel
  dsimp only
  refine Finset.sum_congr rfl fun k hk => ?_
  have hkw : k < ws := Finset.mem_range.mp hk
  have hterm : ∀ l ∈ Finset.range ws,
      (if k ≤ i ∧ l ≤ j then (if k < ws ∧ l < ws ∧ l = k then 1 else 0) * P (i - k) (j - l)
        else 0) =
      (if l = k then (if k ≤ i ∧ k ≤ j then P (i - k) (j - k) else 0) else 0) := by
    intro l hl
    have hlw : l < ws := Finset.mem_range.mp hl
    by_cases hlk : l = k
    · subst hlk
      simp [hlw]
    · simp [hlk, hlw]
  rw [Finset.sum_congr rfl hterm, Finset.sum_ite_eq' (Finset.range ws) k
    (fun _ => if k ≤ i ∧ k ≤ j then P (i - k) (j - k) else 0), if_pos hk]

lemma conv_d2Kernel (P : ℕ → ℕ → ℕ) (ws i j : ℕ) :
    conv2dAt P (d2Kernel ws) i j =
      ∑ k ∈ Finset.range ws,
        if k ≤ i ∧ ws - 1 - k ≤ j then P (i - k) (j - (ws - 1 - k)) else 0 := by
  unfold conv2dAt d2Kernel
  dsimp only
  refine Finset.sum_congr rfl fun k hk => ?_
  have hkw : k < ws := Finset.mem_range.mp hk
  have hmem : ws - 1 - k ∈ Finset.range ws := Finset.mem_range.mpr (by omega)
  have hterm : ∀ l ∈ Finset.range ws,
      (if k ≤ i ∧ l ≤ j then (if k < ws ∧ l < ws ∧ l = ws - 1 - k then 1 else 0) *
        P (i - k) (j - l) else 0) =
      (if l = ws - 1 - k then
        (if k ≤ i ∧ ws - 1 - k ≤ j then P (i - k) (j - (ws - 1 - k)) else 0) else 0) := by
    intro l hl
    have hlw : l < ws := Finset.mem_range.mp hl
    by_cases hlk : l = ws - 1 - k
    · subst hlk
      simp [hlw, hkw]
    · simp [hlk, hlw]
  rw [Finset.sum_congr rfl hterm, Finset.sum_ite_eq' (Finset.range ws) (ws - 1 - k)
    (fun _ => if k ≤ i ∧ ws - 1 - k ≤ j then P (i - k) (j - (ws - 1 - k)) else 0),
    if_pos hmem]

lemma kernelWins_iff (P : ℕ → ℕ → ℕ) (K : Kernel) (ws r c : ℕ) :
    kernelWins P K ws r c = true ↔
      ∃ i < r + K.kr - 1, ∃ j < c + K.kc - 1, ws ≤ conv2dAt P K i j := by
  unfold kernelWins
  simp [List.any_eq_true, List.mem_range]

lemma hKernel_wins_iff (g : Grid r c) (pid ws : ℕ) (hws : 0 < ws) :
    kernelWins (pieces g pid) (hKernel ws) ws r c = true ↔
      ∃ i < r, ∃ j < c, j + ws ≤ c ∧ ∀ t < ws, pieces g pid i (j + t) = 1 := by
  rw [kernelWins_iff]
  have hkr : (hKernel ws).kr = 1 := rfl
  have hkc : (hKernel ws).kc = ws := rfl
  rw [hkr, hkc]
  constructor
  · rintro ⟨i, hi, j, hj, hconv⟩
    rw [conv_hKernel] at hconv
    replace hconv := (sum_guard_iff ws (fun l => l ≤ j) (fun l => pieces g pid i (j - l))
      (fun l => pieces_le_one g pid i (j - l))).mp hconv
    have h0 := hconv 0 (by omega)
    have hws1 := hconv (ws - 1) (by omega)
    rw [Nat.sub_zero] at h0
    obtain ⟨hir, hjc, _⟩ := (pieces_eq_one_iff g pid i j).mp h0.2
    obtain ⟨_, hj0c, _⟩ := (pieces_eq_one_iff g pid i (j - (ws - 1))).mp hws1.2
    refine ⟨i, hir, j - (ws - 1), hj0c, by have := hws1.1; omega, ?_⟩
    intro t ht
    have hl := hconv (ws - 1 - t) (by omega)
    have heq : j - (ws - 1 - t) = j - (ws - 1) + t := by have := hws1.1; omega
    rw [heq] at hl
    exact hl.2
  · rintro ⟨i, hir, j0, hj0c, hj0ws, hrun⟩
    refine ⟨i, by omega, j0 + ws - 1, by omega, ?_⟩
    rw [conv_hKernel]
    refine (sum_guard_iff ws (fun l => l ≤ j0 + ws - 1)
      (fun l => pieces g pid i (j0 + ws - 1 - l))
      (fun l => pieces_le_one g pid i (j0 + ws - 1 - l))).mpr ?_
    intro l hl
    refine ⟨by omega, ?_⟩
    have heq : j0 + ws - 1 - l = j0 + (ws - 1 - l) := by omega
    rw [heq]
    exact hrun (ws - 1 - l) (by omega)

lemma vKernel_wins_iff (g : Grid r c) (pid ws : ℕ) (hws : 0 < ws) :
    kernelWins (pieces g pid) (vKernel ws) ws r c = true ↔
      ∃ i < r, ∃ j < c, i + ws ≤ r ∧ ∀ t < ws, pieces g pid (i + t) j = 1 := by
  rw [kernelWins_iff]
  have hkr : (vKernel ws).kr = ws := rfl
  have hkc : (vKernel ws).kc = 1 := rfl
  rw [hkr, hkc]
  constructor
  · rintro ⟨i, hi, j, hj, hconv⟩
    rw [conv_vKernel] at hconv
    replace hconv := (sum_guard_iff ws (fun k => k ≤ i) (fun k => pieces g pid (i - k) j)
      (fun k => pieces_le_one g pid (i - k) j)).mp hconv
    have h0 := hconv 0 (by omega)
    have hws1 := hconv (ws - 1) (by omega)
    rw [Nat.sub_zero] at h0
    obtain ⟨hir, hjc, _⟩ := (pieces_eq_one_iff g pid i j).mp h0.2
    obtain ⟨hi0r, _, _⟩ := (pieces_eq_one_iff g pid (i - (ws - 1)) j).mp hws1.2
    refine ⟨i - (ws - 1), hi0r, j, hjc, by have := hws1.1; omega, ?_⟩
    intro t ht
    have hl := hconv (ws - 1 - t) (by omega)
    have heq : i - (ws - 1 - t) = i - (ws - 1) + t := by have := hws1.1; omega
    rw [heq] at hl
    exact hl.2
  · rintro ⟨i0, hi0r, j, hjc, hi0ws, hrun⟩
    refine ⟨i0 + ws - 1, by omega, j, by omega, ?_⟩
    rw [conv_vKernel]
    refine (sum_guard_iff ws (fun k => k ≤ i0 + ws - 1)
      (fun k => pieces g pid (i0 + ws - 1 - k) j)
      (fun k => pieces_le_one g pid (i0 + ws - 1 - k) j)).mpr ?_
    intro k hk
    refine ⟨by omega, ?_⟩
    have heq : i0 + ws - 1 - k = i0 + (ws - 1 - k) := by omega
    rw [heq]
    exact hrun (ws - 1 - k) (by omega)

lemma d1Kernel_wins_iff (g : Grid r c) (pid ws : ℕ) (hws : 0 < ws) :
    kernelWins (pieces g pid) (d1Kernel ws) ws r c = true ↔
      ∃ i < r, ∃ j < c, i + ws ≤ r ∧ j + ws ≤ c ∧
        ∀ t < ws, pieces g pid (i + t) (j + t) = 1 := by
  rw [kernelWins_iff]
  have hkr : (d1Kernel ws).kr = ws := rfl
  have hkc : (d1Kernel ws).kc = ws := rfl
  rw [hkr, hkc]
  constructor
  · rintro ⟨i, hi, j, hj, hconv⟩
    rw [conv_d1Kernel] at hconv
    replace hconv := (sum_guard_iff ws (fun k => k ≤ i ∧ k ≤ j)
      (fun k => pieces g pid (i - k) (j - k))
      (fun k => pieces_le_one g pid (i - k) (j - k))).mp hconv
    have h0 := hconv 0 (by omega)
    have hws1 := hconv (ws - 1) (by omega)
    simp only [Nat.sub_zero] at h0
    obtain ⟨hir, hjc, _⟩ := (pieces_eq_one_iff g pid i j).mp h0.2
    obtain ⟨hi0r, hj0c, _⟩ :=
      (pieces_eq_one_iff g pid (i - (ws - 1)) (j - (ws - 1))).mp hws1.2
    refine ⟨i - (ws - 1), hi0r, j - (ws - 1), hj0c,
      by have := hws1.1.1; omega, by have := hws1.1.2; omega, ?_⟩
    intro t ht
    have hl := hconv (ws - 1 - t) (by omega)
    have heqi : i - (ws - 1 - t) = i - (ws - 1) + t := by have := hws1.1.1; omega
    have heqj : j - (ws - 1 - t) = j - (ws - 1) + t := by have := hws1.1.2; omega
    rw [heqi, heqj] at hl
    exact hl.2
  · rintro ⟨i0, hi0r, j0, hj0c, hi0ws, hj0ws, hrun⟩
    refine ⟨i0 + ws - 1, by omega, j0 + ws - 1, by omega, ?_⟩
    rw [conv_d1Kernel]
    refine (sum_guard_iff ws (fun k => k ≤ i0 + ws - 1 ∧ k ≤ j0 + ws - 1)
      (fun k => pieces g pid (i0 + ws - 1 - k) (j0 + ws - 1 - k))
      (fun k => pieces_le_one g pid (i0 + ws - 1 - k) (j0 + ws - 1 - k))).mpr ?_
    intro k hk
    refine ⟨⟨by omega, by omega⟩, ?_⟩
    have heqi : i0 + ws - 1 - k = i0 + (ws - 1 - k) := by omega
    have heqj : j0 + ws - 1 - k = j0 + (ws - 1 - k) := by omega
    rw [heqi, heqj]
    exact hrun (ws - 1 - k) (by omega)

lemma d2Kernel_wins_iff (g : Grid r c) (pid ws : ℕ) (hws : 0 < ws) :
    kernelWins (pieces g pid) (d2Kernel ws) ws r c = true ↔
      ∃ i < r, ∃ j < c, i + ws ≤ r ∧ j + ws ≤ c ∧
        ∀ t < ws, pieces g pid (i + t) (j + (ws - 1) - t) = 1 := by
  rw [kernelWins_iff]
  have hkr : (d2Kernel ws).kr = ws := rfl
  have hkc : (d2Kernel ws).kc = ws := rfl
  rw [hkr, hkc]
  constructor
  · rintro ⟨i, hi, j, hj, hconv⟩
    rw [conv_d2Kernel] at hconv
    replace hconv := (sum_guard_iff ws (fun k => k ≤ i ∧ ws - 1 - k ≤ j)
      (fun k => pieces g pid (i - k) (j - (ws - 1 - k)))
      (fun k => pieces_le_one g pid (i - k) (j - (ws - 1 - k)))).mp hconv
    have h0 := hconv 0 (by omega)
    have hws1 := hconv (ws - 1) (by omega)
    simp only [Nat.sub_zero] at h0
    simp only [Nat.sub_self, Nat.sub_zero] at hws1
    obtain ⟨hir, hj0c, _⟩ := (pieces_eq_one_iff g pid i (j - (ws - 1))).mp h0.2
    obtain ⟨hi0r, hjc, _⟩ := (pieces_eq_one_iff g pid (i - (ws - 1)) j).mp hws1.2
    refine ⟨i - (ws - 1), hi0r, j - (ws - 1), hj0c,
      by have := hws1.1.1; omega, by have := h0.1.2; omega, ?_⟩
    intro t ht
    have hl := hconv (ws - 1 - t) (by omega)
    have heqi : i - (ws - 1 - t) = i - (ws - 1) + t := by have := hws1.1.1; omega
    have heqj : j - (ws - 1 - (ws - 1 - t)) = j - (ws - 1) + (ws - 1) - t := by
      have := h0.1.2
      omega
    rw [heqi, heqj] at hl
    exact hl.2
  · rintro ⟨i0, hi0r, j0, hj0c, hi0ws, hj0ws, hrun⟩
    refine ⟨i0 + ws - 1, by omega, j0 + ws - 1, by omega, ?_⟩
    rw [conv_d2Kernel]
    refine (sum_guard_iff ws (fun k => k ≤ i0 + ws - 1 ∧ ws - 1 - k ≤ j0 + ws - 1)
      (fun k => pieces g pid (i0 + ws - 1 - k) (j0 + ws - 1 - (ws - 1 - k)))
      (fun k => pieces_le_one g pid (i0 + ws - 1 - k) (j0 + ws - 1 - (ws - 1 - k)))).mpr ?_
    intro k hk
    refine ⟨⟨by omega, by omega⟩, ?_⟩
    have heqi : i0 + ws - 1 - k = i0 + (ws - 1 - k) := by omega
    have heqj : j0 + ws - 1 - (ws - 1 - k) = j0 + (ws - 1) - (ws - 1 - k) := by omega
    rw [heqi, heqj]
    exact hrun (ws - 1 - k) (by omega)

/-- The engine's convolution-based win test agrees with the
directional-run characterisation, for every player id and every
positive win streak. -/
lemma check_win_iff_winByRun (r c ws : ℕ) (hws : 0 < ws) (g : Connect4 r c ws)
    (pid : ℕ) : check_win g pid = true ↔ winByRun g.grid pid ws := by
  unfold check_win winByRun
  simp only [List.any_cons, List.any_nil, Bool.or_eq_true, Bool.or_false]
  exact or_congr (hKernel_wins_iff g.grid pid ws hws)
    (or_congr (vKernel_wins_iff g.grid pid ws hws)
      (or_congr (d1Kernel_wins_iff g.grid pid ws hws)
        (d2Kernel_wins_iff g.grid pid ws hws)))

/-! ### Claim C7: win detection -/

/-- C7: for every board and every player in {1, 2}, `check_win`
returns true exactly when some in-bounds placement of one of the four
directional patterns of length `win_streak` is fully covered by that
player's pieces; moreover, on the spec's horizontal example board
`check_win 1` is true and `check_win 2` is false, and on the empty
board it is false for both players. -/
theorem claim_C7_check_win_runs :
    (∀ (r c ws : ℕ), 0 < ws → ∀ (g : Connect4 r c ws) (pid : ℕ),
      pid = 1 ∨ pid = 2 → (check_win g pid = true ↔ winByRun g.grid pid ws)) ∧
    check_win exampleH 1 = true ∧
    check_win exampleH 2 = false ∧
    check_win (Connect4.init 6 7 4) 1 = false ∧
    check_win (Connect4.init 6 7 4) 2 = false := by
  refine ⟨fun r c ws hws g pid _ => check_win_iff_winByRun r c ws hws g pid,
    ?_, ?_, ?_, ?_⟩ <;> decide

/-- C7 witness: the equivalence instantiated at the horizontal example
board for player 1. -/
theorem claim_C7_check_win_runs_witness :
    check_win exampleH 1 = true ↔ winByRun exampleH.grid 1 4 :=
  claim_C7_check_win_runs.1 6 7 4 (by decide) exampleH 1 (Or.inl rfl)

/-! ### Claim C2: check_win on invalid player ids -/

/-- C2 counterexample: the claim states that `check_win` with an
invalid player id — in particular the Empty value 0 — returns false.
On the empty (reachable) 6×7 board, `check_win 0` masks the empty
cells themselves and finds plenty of runs of four, returning true. -/
theorem claim_C2_counterexample_empty_player :
    check_win (Connect4.init 6 7 4) 0 = true := by decide

/-- C2 (amended): calling `check_win` with a player id that occurs in
no cell of the grid (any genuinely invalid id other than Empty, e.g. 3)
is well-defined and returns false; the Empty id 0 is the exception,
because the mask `grid == 0` selects the empty cells themselves. -/
theorem claim_C2_invalid_player (r c ws : ℕ) (hws : 0 < ws) (g : Connect4 r c ws)
    (pid : ℕ) (hpid : ∀ (i : Fin r) (j : Fin c), g.grid i j ≠ pid) :
    check_win g pid = false := by
  rw [Bool.eq_false_iff]
  intro htrue
  have hrun := (check_win_iff_winByRun r c ws hws g pid).mp htrue
  rcases hrun with ⟨i, hi, j, hj, hjw, hall⟩ | ⟨i, hi, j, hj, hiw, hall⟩ |
    ⟨i, hi, j, hj, hiw, hjw, hall⟩ | ⟨i, hi, j, hj, hiw, hjw, hall⟩ <;>
  · obtain ⟨hir, hjc, hcell⟩ := (pieces_eq_one_iff _ _ _ _).mp (hall 0 hws)
    exact hpid _ _ hcell

/-- C2 witness: the id 3 occurs nowhere on the fresh board, and
`check_win` returns false for it. -/
theorem claim_C2_invalid_player_witness :
    check_win (Connect4.init 6 7 4) 3 = false :=
  claim_C2_invalid_player 6 7 4 (by decide) (Connect4.init 6 7 4) 3 (by decide)

end DeepConnect
